import Mathlib

/-!
Verification of the sparse Merkle sum tree (SMST) proof subsystem.

The Go sources are shallowly embedded: byte slices become `List Nat`
(each entry a byte value), Go `uint64` arithmetic carries an explicit
`% 2 ^ 64`, Go `(value, error)` multi-returns become tuples with an
`Option` error (or `Except` where the value is unused on error), and
Go `nil` slices in optional positions become `Option (List Nat)`.
The pluggable digest functions are abstract fields of `TreeSpec`;
helpers of the repository that are not among the given source files
are modelled from the specification and marked as such.
-/

/-- Error taxonomy of the modelled fragment: `ErrBadProof` is the only
error the proof verifier and (de)compactor can produce. -/
inductive SmtError where
  | badProof
deriving DecidableEq

/-- Width in bytes of the sum field carried beside every node hash.
The verifier source uses `spec.th.hashSize()+16` for every sidenode and
builds a `[16]byte` sum buffer, so the field is 16 bytes wide. -/
def sumLength : Nat := 16

/-- Modelled from the spec: the tag byte distinguishing serialized leaf
records (the source's `leafPrefix`, one tag byte). -/
def leafTag : List Nat := [0]

/-- Modelled from the spec: the tag byte distinguishing serialized inner
records (the source's `innerPrefix`, one tag byte). -/
def innerTag : List Nat := [1]

/-- Modelled from the spec: the `defaultValue` sentinel, empty bytes.
Go's `bytes.Equal(value, defaultValue)` holds exactly for empty values. -/
def defaultValue : List Nat := []

/-- The Go `left` orientation constant: path bit 0 means left. -/
def left : Nat := 0

/-- The tree specification: path size and hasher, the base digest, the
configured value digest and the serialization hash used to check sibling
data.  The digest functions are pluggable collaborators and therefore
abstract here; the fixed-output-size contract of the base digest is kept
as a field since the sum-node digest relies on it. -/
structure TreeSpec where
  pathSize : Nat
  hashSize : Nat
  path : List Nat → List Nat
  baseHash : List Nat → List Nat
  digestValue : List Nat → List Nat
  hashSumSer : List Nat → List Nat
  baseHash_len : ∀ x, (baseHash x).length = hashSize

/-- Big-endian byte decoding (Go `binary.BigEndian` / the hex sum encoding). -/
def fromBE (bs : List Nat) : Nat :=
  bs.foldl (fun a b => a * 256 + b) 0

/-- Big-endian encoding of a number into `w` bytes. -/
def toBE : Nat → Nat → List Nat
  | 0, _ => []
  | w + 1, n => toBE w (n / 256) ++ [n % 256]

/-- Go's `node := make([]byte, l); copy(node, src)`: the source truncated or
right-padded with zero bytes to length `l`. -/
def copyInto (l : Nat) (src : List Nat) : List Nat :=
  src.take l ++ List.replicate (l - src.length) 0

/-- Modelled from the spec: bit-indexed path access, most significant bit
first within each byte (the source's `getPathBit`, returning 0 or 1). -/
def getPathBit (data : List Nat) (position : Nat) : Nat :=
  if Nat.testBit (data.getD (position / 8) 0) (7 - position % 8) then 1 else 0

/-- Modelled from the spec: set the bit at `position`, most significant bit
first within each byte (the source's `setPathBit`). -/
def setPathBit (data : List Nat) (position : Nat) : List Nat :=
  data.set (position / 8) ((data.getD (position / 8) 0) ||| 2 ^ (7 - position % 8))

/-- Modelled from the spec: number of set bits, scanning every bit position
of the byte sequence (the source's `countSetBits`). -/
def countSetBits (data : List Nat) : Nat :=
  (List.range (8 * data.length)).countP fun i => decide (getPathBit data i = 1)

/-- `SparseMerkleSumProof` from the source: sidenodes leaf-to-root, optional
non-membership leaf data, optional sibling data. -/
structure SparseMerkleSumProof where
  sideNodes : List (List Nat)
  nonMembershipLeafData : Option (List Nat)
  siblingData : Option (List Nat)
deriving DecidableEq

/-- `SparseCompactMerkleSumProof` from the source.  `NumSideNodes` is a Go
`int`, hence `Int` here. -/
structure SparseCompactMerkleSumProof where
  sideNodes : List (List Nat)
  nonMembershipLeafData : Option (List Nat)
  bitMask : List Nat
  numSideNodes : Int
  siblingData : Option (List Nat)
deriving DecidableEq

/-- Modelled from the spec: the placeholder `hash‖sum` for an empty subtree,
an all-zero hash next to an all-zero sum (`th.sumPlaceholder`). -/
def sumPlaceholder (spec : TreeSpec) : List Nat :=
  List.replicate spec.hashSize 0 ++ List.replicate sumLength 0

/-- Modelled from the spec: leaf digest (`th.digestSumLeaf`); serialized
bytes are `leafTag‖path‖valueDigest‖sum` and the node encoding is the hash
of those bytes with the sum carried alongside. -/
def digestSumLeaf (spec : TreeSpec) (path leafData sum : List Nat) : List Nat × List Nat :=
  let value := leafTag ++ path ++ leafData ++ sum
  (spec.baseHash value ++ sum, value)

/-- Modelled from the spec: inner-node digest (`th.digestSumNode`);
serialized bytes are `innerTag‖leftEnc‖rightEnc`, the sums are decoded
big-endian from the trailing sum fields and added as Go `uint64`s, and the
combined sum is carried alongside the hash. -/
def digestSumNode (spec : TreeSpec) (leftData rightData : List Nat) : List Nat × List Nat :=
  let value := innerTag ++ leftData ++ rightData
  let leftSum := fromBE (leftData.drop (leftData.length - sumLength))
  let rightSum := fromBE (rightData.drop (rightData.length - sumLength))
  (spec.baseHash value ++ toBE sumLength ((leftSum + rightSum) % 2 ^ 64), value)

/-- Modelled from the spec: split stored leaf bytes back into
`(path, valueDigest, sum)` (the source's `parseSumLeaf`). -/
def parseSumLeaf (spec : TreeSpec) (data : List Nat) : List Nat × List Nat × List Nat :=
  let rest := data.drop (leafTag.length + spec.pathSize)
  ((data.drop leafTag.length).take spec.pathSize,
   rest.take (rest.length - sumLength),
   rest.drop (rest.length - sumLength))

/-- Modelled from the spec: the hash of a node's serialized data, used to
check sibling data against the first sidenode.  Its internals are not among
the given sources, so it stays an abstract parameter of the tree spec. -/
def hashSumSerialization (spec : TreeSpec) (data : List Nat) : List Nat :=
  spec.hashSumSer data

/-- Helper for the first sanity-check condition: non-membership leaf data is
present but smaller than a tag byte plus a path. -/
def nmlUndersized (spec : TreeSpec) (nmld : Option (List Nat)) : Bool :=
  match nmld with
  | none => false
  | some d => decide (d.length < leafTag.length + spec.pathSize)

/-- `SparseMerkleSumProof.sanityCheck` from the source: bound the sidenode
count, check the non-membership leaf data size, check every sidenode's
size, and check that sibling data (when present, with at least one
sidenode) hashes to the first sidenode. -/
def SparseMerkleSumProof.sanityCheck (proof : SparseMerkleSumProof) (spec : TreeSpec) : Bool :=
  if decide (proof.sideNodes.length > spec.pathSize * 8)
      || nmlUndersized spec proof.nonMembershipLeafData then
    false
  else if proof.sideNodes.any fun v => decide (v.length ≠ spec.hashSize + sumLength) then
    false
  else
    match proof.siblingData with
    | none => true
    | some d =>
      if decide (proof.sideNodes.length = 0) then true
      else proof.sideNodes.headD [] == hashSumSerialization spec d

/-- `SparseCompactMerkleSumProof.sanityCheck` from the source.  The Go
`int(math.Ceil(float64(n)/8))` is modelled exactly as `(n + 7) / 8` (the
two agree for every non-negative count that fits a float's mantissa, and a
negative count is rejected by the first disjunct before the ceiling is
compared). -/
def SparseCompactMerkleSumProof.sanityCheck
    (proof : SparseCompactMerkleSumProof) (spec : TreeSpec) : Bool :=
  if decide (proof.numSideNodes < 0)
      || decide (proof.numSideNodes > (spec.pathSize : Int) * 8)
      || decide (proof.bitMask.length ≠ (proof.numSideNodes.toNat + 7) / 8)
      || (decide (0 < proof.numSideNodes)
          && decide ((proof.sideNodes.length : Int)
                ≠ proof.numSideNodes - (countSetBits proof.bitMask : Int))) then
    false
  else
    true

/-- The sidenode-folding loop of `verifySumProofWithUpdates`: starting from
the leaf encoding, combine with each sidenode (copied into a fresh
`hashSize+16` buffer) using the path bit at `total - 1 - i` for
orientation, collecting one `[hash, data]` update per step.  The modelled
`digestSumNode` is total, so the Go error propagation inside the loop has
no effect here. -/
def foldSumSideNodes (spec : TreeSpec) (path : List Nat) (total : Nat) :
    List (List Nat) → Nat → List Nat → List Nat × List (List (List Nat))
  | [], _, currentHash => (currentHash, [])
  | v :: rest, i, currentHash =>
    let node := copyInto (spec.hashSize + sumLength) v
    let step :=
      if getPathBit path (total - 1 - i) = left then digestSumNode spec currentHash node
      else digestSumNode spec node currentHash
    let r := foldSumSideNodes spec path total rest (i + 1) step.1
    (r.1, [step.1, step.2] :: r.2)

/-- `verifySumProofWithUpdates` from the source: sanity check, leaf
determination (placeholder, unrelated leaf, or membership leaf), sidenode
folding, and the final byte-for-byte root comparison. -/
def verifySumProofWithUpdates (proof : SparseMerkleSumProof) (root key value : List Nat)
    (sum : List Nat) (spec : TreeSpec) :
    Bool × List (List (List Nat)) × Option SmtError :=
  let path := spec.path key
  if proof.sanityCheck spec = false then
    (false, [], some SmtError.badProof)
  else if value = defaultValue then
    match proof.nonMembershipLeafData with
    | none =>
      let r := foldSumSideNodes spec path proof.sideNodes.length proof.sideNodes 0
        (sumPlaceholder spec)
      (r.1 == root, r.2, none)
    | some d =>
      let p := parseSumLeaf spec d
      if p.1 = path then
        (false, [], some SmtError.badProof)
      else
        let l := digestSumLeaf spec p.1 p.2.1 p.2.2
        let r := foldSumSideNodes spec path proof.sideNodes.length proof.sideNodes 0 l.1
        (r.1 == root, [l.1, l.2] :: r.2, none)
  else
    let l := digestSumLeaf spec path (spec.digestValue value) sum
    let r := foldSumSideNodes spec path proof.sideNodes.length proof.sideNodes 0 l.1
    (r.1 == root, [l.1, l.2] :: r.2, none)

/-- `VerifySumProof` from the source: encode the claimed `uint64` sum into
the 16-byte sum buffer (8 zero bytes then the big-endian value — exactly
`toBE 16` of a value below `2 ^ 64`; the hex decoding can never fail) and
run the verifier, collapsing the updates. -/
def VerifySumProof (proof : SparseMerkleSumProof) (root key value : List Nat)
    (sum : Nat) (spec : TreeSpec) : Bool × Option SmtError :=
  let hexSum := toBE sumLength (sum % 2 ^ 64)
  let r := verifySumProofWithUpdates proof root key value hexSum spec
  match r.2.2 with
  | some e => (false, some e)
  | none => (r.1, none)

/-- The compaction loop of `CompactSumProof`: walk the sidenodes with their
index, set the bitmask bit for each placeholder and keep the others. -/
def compactFold (spec : TreeSpec) :
    List (List Nat) → Nat → List Nat → List Nat × List (List Nat)
  | [], _, mask => (mask, [])
  | v :: rest, i, mask =>
    let node := copyInto (spec.hashSize + sumLength) v
    if node = sumPlaceholder spec then
      compactFold spec rest (i + 1) (setPathBit mask i)
    else
      let r := compactFold spec rest (i + 1) mask
      (r.1, node :: r.2)

/-- `CompactSumProof` from the source. -/
def CompactSumProof (proof : SparseMerkleSumProof) (spec : TreeSpec) :
    Except SmtError SparseCompactMerkleSumProof :=
  if proof.sanityCheck spec = false then
    Except.error SmtError.badProof
  else
    let r := compactFold spec proof.sideNodes 0
      (List.replicate ((proof.sideNodes.length + 7) / 8) 0)
    Except.ok
      { sideNodes := r.2
        nonMembershipLeafData := proof.nonMembershipLeafData
        bitMask := r.1
        numSideNodes := (proof.sideNodes.length : Int)
        siblingData := proof.siblingData }

/-- The reconstruction loop of `DecompactSumProof`: for each index below
`NumSideNodes`, insert a placeholder at every set bitmask bit and consume
the next surviving sidenode at every clear bit. -/
def decompactFold (spec : TreeSpec) (mask : List Nat) (nodes : List (List Nat)) :
    Nat → Nat → Nat → List (List Nat)
  | _, _, 0 => []
  | i, pos, k + 1 =>
    if getPathBit mask i = 1 then
      sumPlaceholder spec :: decompactFold spec mask nodes (i + 1) pos k
    else
      nodes.getD pos [] :: decompactFold spec mask nodes (i + 1) (pos + 1) k

/-- `DecompactSumProof` from the source. -/
def DecompactSumProof (proof : SparseCompactMerkleSumProof) (spec : TreeSpec) :
    Except SmtError SparseMerkleSumProof :=
  if proof.sanityCheck spec = false then
    Except.error SmtError.badProof
  else
    Except.ok
      { sideNodes := decompactFold spec proof.bitMask proof.sideNodes 0 0
          proof.numSideNodes.toNat
        nonMembershipLeafData := proof.nonMembershipLeafData
        siblingData := proof.siblingData }

/-- Modelled from the spec: `sumSize`, the fixed 8-byte big-endian sum field
the SMST wrapper appends to the value digest (the constant is not among the
given sources). -/
def sumSize : Nat := 8

/-- Modelled from the spec: the underlying SMT, whose `Get`/`Update` behave
as an authenticated key-value map — only the mapping behaviour matters to
the wrapper claims, the Merkle structure itself is not modelled. -/
abbrev SMTMap := List (List Nat × List Nat)

/-- Modelled from the spec: `SMT.Get` resolves the stored bytes for a key,
or the `defaultValue` sentinel when the key is absent; it never mutates. -/
def SMT.Get (t : SMTMap) (key : List Nat) : List Nat :=
  match t.find? (fun kv => kv.1 == key) with
  | some kv => kv.2
  | none => defaultValue

/-- Modelled from the spec: `SMT.Update` stores value bytes under a key. -/
def SMT.Update (t : SMTMap) (key valueHash : List Nat) : SMTMap :=
  (key, valueHash) :: t

/-- `SMST.Get` from the source: read the stored bytes, return the sentinel
pair when absent, otherwise split off the trailing `sumSize` bytes and
decode them big-endian. -/
def SMST.Get (spec : TreeSpec) (t : SMTMap) (key : List Nat) : List Nat × Nat :=
  let valueHash := SMT.Get t key
  if valueHash = defaultValue then (defaultValue, 0)
  else
    (valueHash.take (valueHash.length - sumSize),
     fromBE (valueHash.drop (valueHash.length - sumSize)))

/-- `SMST.Update` from the source: append the `sumSize`-byte big-endian sum
to the value digest and store the result (`sum` is a Go `uint64`, hence the
`% 2 ^ 64`). -/
def SMST.Update (spec : TreeSpec) (t : SMTMap) (key value : List Nat) (sum : Nat) : SMTMap :=
  SMT.Update t key (spec.digestValue value ++ toBE sumSize (sum % 2 ^ 64))

/-- The empty proof (`&SparseMerkleProof{}` in the closest-key tests). -/
def emptySumProof : SparseMerkleSumProof :=
  { sideNodes := [], nonMembershipLeafData := none, siblingData := none }

/-- Modelled from the spec: the root of the empty tree is the placeholder
encoding. -/
def emptyTreeRoot (spec : TreeSpec) : List Nat :=
  sumPlaceholder spec

/-- Modelled from the spec: a tree for the closest-key query, as a list of
`(key, value, sum)` leaves. -/
abbrev ClosestTree := List (List Nat × List Nat × Nat)

/-- Modelled from the spec: `ProveClosest` returns a nil key, nil value,
sum 0 and an empty proof on the empty tree, and returns the single leaf
regardless of the query path on a one-leaf tree.  Multi-leaf trees resolve
by structural traversal, which is outside the modelled fragment; the head
leaf stands in for that case and no claim relies on it. -/
def ProveClosest (t : ClosestTree) (queryPath : List Nat) :
    List Nat × List Nat × Nat × SparseMerkleSumProof :=
  match t with
  | [] => ([], [], 0, emptySumProof)
  | [(k, v, s)] => (k, v, s, emptySumProof)
  | leaf :: _ => (leaf.1, leaf.2.1, leaf.2.2, emptySumProof)

/-- The rejection condition exactly as claim C1 words it: sidenode count
above the path bit-length, a sidenode of byte length other than
`digestSize + 8`, undersized non-membership leaf data, or sibling data not
hashing to the first sidenode. -/
def specClaimedReject (spec : TreeSpec) (proof : SparseMerkleSumProof) : Prop :=
  spec.pathSize * 8 < proof.sideNodes.length ∨
  (∃ v ∈ proof.sideNodes, v.length ≠ spec.hashSize + 8) ∨
  (match proof.nonMembershipLeafData with
   | some d => d.length < leafTag.length + spec.pathSize
   | none => False) ∨
  (match proof.siblingData with
   | some d => proof.sideNodes.headD [] ≠ hashSumSerialization spec d
   | none => False)

/-- The amended rejection condition: as the claim, but a sidenode's byte
length must be `digestSize + 16` (the 16-byte sum field of the source) and
the sibling-data check applies only when at least one sidenode exists. -/
def specAmendedReject (spec : TreeSpec) (proof : SparseMerkleSumProof) : Prop :=
  spec.pathSize * 8 < proof.sideNodes.length ∨
  (∃ v ∈ proof.sideNodes, v.length ≠ spec.hashSize + sumLength) ∨
  (match proof.nonMembershipLeafData with
   | some d => d.length < leafTag.length + spec.pathSize
   | none => False) ∨
  (match proof.siblingData with
   | some d => proof.sideNodes ≠ [] ∧ proof.sideNodes.headD [] ≠ hashSumSerialization spec d
   | none => False)

/-- The expected leaf encoding the specification describes for the
verifier: placeholder for a bare non-membership claim, the digest of the
attached unrelated leaf otherwise, and the digest of the claimed
path/value/sum for a membership claim. -/
def expectedSumLeafHash (spec : TreeSpec) (proof : SparseMerkleSumProof)
    (path value hexSum : List Nat) : List Nat :=
  if value = defaultValue then
    match proof.nonMembershipLeafData with
    | none => sumPlaceholder spec
    | some d =>
      let p := parseSumLeaf spec d
      (digestSumLeaf spec p.1 p.2.1 p.2.2).1
  else
    (digestSumLeaf spec path (spec.digestValue value) hexSum).1

/-- The final `hash‖sum` the specification describes: all sidenodes folded
over the expected leaf encoding. -/
def specFoldedRoot (spec : TreeSpec) (proof : SparseMerkleSumProof)
    (key value : List Nat) (sum : Nat) : List Nat :=
  (foldSumSideNodes spec (spec.path key) proof.sideNodes.length proof.sideNodes 0
    (expectedSumLeafHash spec proof (spec.path key) value (toBE sumLength (sum % 2 ^ 64)))).1

/-- A tiny concrete tree spec used by witnesses and counterexamples:
one-byte paths and a one-byte constant digest. -/
def tinySpec : TreeSpec where
  pathSize := 1
  hashSize := 1
  path := fun _ => [0]
  baseHash := fun _ => [0]
  digestValue := fun v => v
  hashSumSer := fun _ => []
  baseHash_len := fun _ => rfl

/-- A concrete spec whose digest never collides with the all-zero
placeholder hash, used for the non-membership sum evidence. -/
def bugSpec : TreeSpec where
  pathSize := 1
  hashSize := 1
  path := fun _ => [0]
  baseHash := fun _ => [1]
  digestValue := fun v => v
  hashSumSer := fun _ => []
  baseHash_len := fun _ => rfl

/-- A proof whose single sidenode is `digestSize + 8` bytes long: fine by
the claimed sanity condition, rejected by the code. -/
def cexProofC1 : SparseMerkleSumProof :=
  { sideNodes := [List.replicate 9 0], nonMembershipLeafData := none, siblingData := none }

/-- A proof with one undersized sidenode, failing the sanity check. -/
def wProofC1 : SparseMerkleSumProof :=
  { sideNodes := [[5]], nonMembershipLeafData := none, siblingData := none }

/-- A sane membership proof with one full-width sidenode. -/
def w2proof : SparseMerkleSumProof :=
  { sideNodes := [List.replicate 17 2], nonMembershipLeafData := none, siblingData := none }

/-- A sane proof with one placeholder and one ordinary sidenode. -/
def p3proof : SparseMerkleSumProof :=
  { sideNodes := [List.replicate 17 0, 2 :: List.replicate 16 0]
    nonMembershipLeafData := none
    siblingData := none }

/-- A non-membership proof whose attached leaf data decodes to the queried
path itself. -/
def w6proof : SparseMerkleSumProof :=
  { sideNodes := [], nonMembershipLeafData := some [9, 0], siblingData := none }

/-- A compact proof with `NumSideNodes = 0` but a stray sidenode: the code
accepts it, the claimed sanity condition does not. -/
def c7cex : SparseCompactMerkleSumProof :=
  { sideNodes := [[]], nonMembershipLeafData := none, bitMask := []
    numSideNodes := 0, siblingData := none }

/-- A compact proof with a negative sidenode count. -/
def c7w : SparseCompactMerkleSumProof :=
  { sideNodes := [], nonMembershipLeafData := none, bitMask := []
    numSideNodes := -1, siblingData := none }

/-- A sane proof with a single non-placeholder sidenode. -/
def p10proof : SparseMerkleSumProof :=
  { sideNodes := [3 :: List.replicate 16 0], nonMembershipLeafData := none
    siblingData := none }

/-! ## Basic byte and bit lemmas -/

theorem copyInto_self (l : Nat) (src : List Nat) (h : src.length = l) :
    copyInto l src = src := by
  subst h
  simp [copyInto]

theorem fromBE_append_single (a : List Nat) (b : Nat) :
    fromBE (a ++ [b]) = fromBE a * 256 + b := by
  simp [fromBE, List.foldl_append]

theorem toBE_length (w n : Nat) : (toBE w n).length = w := by
  induction w generalizing n with
  | zero => simp [toBE]
  | succ w ih => simp [toBE, ih]

theorem fromBE_toBE (w n : Nat) (h : n < 256 ^ w) : fromBE (toBE w n) = n := by
  induction w generalizing n with
  | zero =>
    interval_cases n
    simp [toBE, fromBE]
  | succ w ih =>
    have hdiv : n / 256 < 256 ^ w := by
      rw [Nat.div_lt_iff_lt_mul (by norm_num)]
      calc n < 256 ^ (w + 1) := h
        _ = 256 ^ w * 256 := by ring
    have hmod := Nat.mod_lt n (show 0 < 256 by norm_num)
    have := Nat.div_add_mod n 256
    rw [toBE, fromBE_append_single, ih _ hdiv]
    omega

theorem getD_replicate_zero (k i : Nat) : (List.replicate k 0).getD i 0 = 0 := by
  induction k generalizing i with
  | zero => simp [List.getD]
  | succ k ih =>
    cases i with
    | zero => simp [List.replicate]
    | succ i => simpa [List.replicate] using ih i

theorem getD_append_cons (pre : List (List Nat)) (x : List Nat) (l : List (List Nat)) :
    (pre ++ x :: l).getD pre.length [] = x := by
  induction pre with
  | nil => simp [List.getD]
  | cons a pre ih => simpa using ih

theorem getD_set_self (l : List Nat) (i a : Nat) (h : i < l.length) :
    (l.set i a).getD i 0 = a := by
  induction l generalizing i with
  | nil => simp at h
  | cons b l ih =>
    cases i with
    | zero => simp
    | succ i =>
      simp only [List.set, List.length_cons] at h ⊢
      exact ih i (by omega)

theorem getD_set_ne (l : List Nat) (i j a : Nat) (h : i ≠ j) :
    (l.set i a).getD j 0 = l.getD j 0 := by
  induction l generalizing i j with
  | nil => simp
  | cons b l ih =>
    cases i with
    | zero =>
      cases j with
      | zero => exact absurd rfl h
      | succ j => simp
    | succ i =>
      cases j with
      | zero => simp
      | succ j => simpa using ih i j (by omega)

theorem getPathBit_replicate_zero (k j : Nat) :
    getPathBit (List.replicate k 0) j = 0 := by
  simp [getPathBit, getD_replicate_zero]

theorem length_setPathBit (mask : List Nat) (i : Nat) :
    (setPathBit mask i).length = mask.length := by
  simp [setPathBit]

theorem getPathBit_setPathBit_ne (mask : List Nat) (i j : Nat) (h : i ≠ j) :
    getPathBit (setPathBit mask i) j = getPathBit mask j := by
  unfold getPathBit setPathBit
  by_cases hb : i / 8 = j / 8
  · have hij : i % 8 ≠ j % 8 := by
      intro hmod
      exact h (by omega)
    by_cases hlt : j / 8 < mask.length
    · rw [hb, getD_set_self _ _ _ hlt, Nat.testBit_lor,
        Nat.testBit_two_pow_of_ne (by omega), Bool.or_false]
    · rw [List.set_eq_of_length_le (by omega)]
  · rw [getD_set_ne _ _ _ _ hb]

theorem getPathBit_setPathBit_self (mask : List Nat) (i : Nat) (h : i < 8 * mask.length) :
    getPathBit (setPathBit mask i) i = 1 := by
  have hlt : i / 8 < mask.length := by omega
  unfold getPathBit setPathBit
  rw [getD_set_self _ _ _ hlt, Nat.testBit_lor, Nat.testBit_two_pow_self, Bool.or_true]
  simp

theorem countP_range_update (n a : Nat) (p q : Nat → Bool) (ha : a < n)
    (hpa : p a = false) (hqa : q a = true) (hne : ∀ i, i ≠ a → p i = q i) :
    (List.range n).countP q = (List.range n).countP p + 1 := by
  induction n with
  | zero => omega
  | succ n ih =>
    rw [List.range_succ, List.countP_append, List.countP_append]
    by_cases han : a = n
    · subst han
      have hcongr : (List.range a).countP p = (List.range a).countP q := by
        apply List.countP_congr
        intro i hi
        have hia : i < a := List.mem_range.mp hi
        rw [hne i (by omega)]
      have h1 : List.countP p [a] = 0 := by simp [List.countP_cons, hpa]
      have h2 : List.countP q [a] = 1 := by simp [List.countP_cons, hqa]
      omega
    · have hihn := ih (by omega)
      have hn : List.countP p [n] = List.countP q [n] := by
        simp [List.countP_cons, hne n (by omega)]
      omega

theorem countSetBits_replicate_zero (k : Nat) :
    countSetBits (List.replicate k 0) = 0 := by
  rw [countSetBits, List.countP_eq_length_filter, List.length_eq_zero]
  apply List.filter_eq_nil_iff.mpr
  intro i _
  simp [getPathBit_replicate_zero]

theorem countSetBits_setPathBit (mask : List Nat) (i : Nat)
    (h0 : getPathBit mask i = 0) (hlt : i < 8 * mask.length) :
    countSetBits (setPathBit mask i) = countSetBits mask + 1 := by
  unfold countSetBits
  rw [length_setPathBit]
  apply countP_range_update _ i _ _ hlt
  · simp [h0]
  · simp [getPathBit_setPathBit_self mask i hlt]
  · intro j hj
    simp [getPathBit_setPathBit_ne mask i j (by omega)]

theorem list_eq_iff_take_drop (n : Nat) (a b : List Nat) :
    a = b ↔ a.take n = b.take n ∧ a.drop n = b.drop n := by
  constructor
  · rintro rfl
    exact ⟨rfl, rfl⟩
  · rintro ⟨h1, h2⟩
    rw [← List.take_append_drop n a, ← List.take_append_drop n b, h1, h2]

/-! ## The plain-proof sanity check -/

theorem sanityCheck_eq_false_iff (spec : TreeSpec) (proof : SparseMerkleSumProof) :
    proof.sanityCheck spec = false ↔ specAmendedReject spec proof := by
  obtain ⟨sns, nmld, sd⟩ := proof
  unfold SparseMerkleSumProof.sanityCheck specAmendedReject nmlUndersized
  rcases nmld with _ | d1 <;> rcases sd with _ | d2 <;>
    simp only [Bool.or_eq_true, decide_eq_true_iff, List.any_eq_true] <;>
    split_ifs <;>
    simp_all [beq_iff_eq, List.length_eq_zero, not_or] <;>
    first
    | tauto
    | (have hnlt : ¬ spec.pathSize * 8 < sns.length := by omega
       have hax : ∀ x ∈ sns, x.length = spec.hashSize + sumLength := by assumption
       have hnex : ¬ ∃ x ∈ sns, ¬ x.length = spec.hashSize + sumLength := by
         rintro ⟨x, hx, hlen⟩
         exact hlen (hax x hx)
       first
       | tauto
       | (have hnd : ¬ d1.length < leafTag.length + spec.pathSize := by omega
          tauto))

theorem sanityCheck_true_facts (spec : TreeSpec) (proof : SparseMerkleSumProof)
    (h : proof.sanityCheck spec = true) :
    proof.sideNodes.length ≤ spec.pathSize * 8 ∧
    ∀ v ∈ proof.sideNodes, v.length = spec.hashSize + sumLength := by
  have hr : ¬ specAmendedReject spec proof := by
    rw [← sanityCheck_eq_false_iff, h]
    simp
  unfold specAmendedReject at hr
  push_neg at hr
  exact ⟨hr.1, hr.2.1⟩

theorem le_eight_mul_ceilDiv (n : Nat) : n ≤ 8 * ((n + 7) / 8) := by
  have h1 := Nat.div_add_mod (n + 7) 8
  have h2 : (n + 7) % 8 < 8 := Nat.mod_lt _ (by norm_num)
  omega

theorem decompactFold_zero (spec : TreeSpec) (mask : List Nat) (nodes : List (List Nat))
    (i pos : Nat) : decompactFold spec mask nodes i pos 0 = [] := rfl

theorem decompactFold_succ (spec : TreeSpec) (mask : List Nat) (nodes : List (List Nat))
    (i pos k : Nat) :
    decompactFold spec mask nodes i pos (k + 1) =
      if getPathBit mask i = 1 then
        sumPlaceholder spec :: decompactFold spec mask nodes (i + 1) pos k
      else
        nodes.getD pos [] :: decompactFold spec mask nodes (i + 1) (pos + 1) k := rfl

theorem compactFold_cons (spec : TreeSpec) (v : List Nat) (rest : List (List Nat))
    (i : Nat) (mask : List Nat) :
    compactFold spec (v :: rest) i mask =
      if copyInto (spec.hashSize + sumLength) v = sumPlaceholder spec then
        compactFold spec rest (i + 1) (setPathBit mask i)
      else
        ((compactFold spec rest (i + 1) mask).1,
         copyInto (spec.hashSize + sumLength) v :: (compactFold spec rest (i + 1) mask).2) := by
  rw [compactFold]

/-- Everything the compaction loop guarantees, in one induction: the bitmask
keeps its length, bits below the running index are untouched, set bits plus
surviving sidenodes account exactly for all processed sidenodes, and the
reconstruction loop inverts the compaction for any already-consumed survivor
prefix. -/
theorem compactFold_correct (spec : TreeSpec) (nodes : List (List Nat)) :
    ∀ (i0 : Nat) (mask : List Nat),
      (∀ v ∈ nodes, v.length = spec.hashSize + sumLength) →
      i0 + nodes.length ≤ 8 * mask.length →
      (∀ j, i0 ≤ j → getPathBit mask j = 0) →
      (compactFold spec nodes i0 mask).1.length = mask.length ∧
      (∀ j, j < i0 →
        getPathBit (compactFold spec nodes i0 mask).1 j = getPathBit mask j) ∧
      countSetBits (compactFold spec nodes i0 mask).1
          + (compactFold spec nodes i0 mask).2.length
        = countSetBits mask + nodes.length ∧
      (∀ pre : List (List Nat),
        decompactFold spec (compactFold spec nodes i0 mask).1
          (pre ++ (compactFold spec nodes i0 mask).2) i0 pre.length nodes.length
        = nodes) := by
  induction nodes with
  | nil =>
    intro i0 mask hlen hbound hzero
    simp [compactFold, decompactFold_zero]
  | cons v rest ih =>
    intro i0 mask hlen hbound hzero
    have hv : v.length = spec.hashSize + sumLength := hlen v (by simp)
    have hnode : copyInto (spec.hashSize + sumLength) v = v := copyInto_self _ _ hv
    have hi0 : i0 < 8 * mask.length := by
      simp only [List.length_cons] at hbound
      omega
    by_cases hpl : v = sumPlaceholder spec
    · have hstep : compactFold spec (v :: rest) i0 mask
          = compactFold spec rest (i0 + 1) (setPathBit mask i0) := by
        rw [compactFold_cons, hnode, if_pos hpl]
      have hmask1 : (setPathBit mask i0).length = mask.length := length_setPathBit mask i0
      have hz1 : ∀ j, i0 + 1 ≤ j → getPathBit (setPathBit mask i0) j = 0 := by
        intro j hj
        rw [getPathBit_setPathBit_ne mask i0 j (by omega)]
        exact hzero j (by omega)
      have hb1 : (i0 + 1) + rest.length ≤ 8 * (setPathBit mask i0).length := by
        rw [hmask1]
        simp only [List.length_cons] at hbound
        omega
      obtain ⟨ih1, ih2, ih3, ih4⟩ :=
        ih (i0 + 1) (setPathBit mask i0) (fun x hx => hlen x (by simp [hx])) hb1 hz1
      rw [hstep]
      refine ⟨by rw [ih1, hmask1], ?_, ?_, ?_⟩
      · intro j hj
        rw [ih2 j (by omega), getPathBit_setPathBit_ne mask i0 j (by omega)]
      · rw [ih3, countSetBits_setPathBit mask i0 (hzero i0 le_rfl) hi0]
        simp only [List.length_cons]
        omega
      · intro pre
        have hbit : getPathBit (compactFold spec rest (i0 + 1) (setPathBit mask i0)).1 i0 = 1 := by
          rw [ih2 i0 (by omega)]
          exact getPathBit_setPathBit_self mask i0 hi0
        simp only [List.length_cons]
        rw [decompactFold_succ, if_pos hbit, ← hpl]
        congr 1
        exact ih4 pre
    · have hstep : compactFold spec (v :: rest) i0 mask
          = ((compactFold spec rest (i0 + 1) mask).1,
             v :: (compactFold spec rest (i0 + 1) mask).2) := by
        rw [compactFold_cons, hnode, if_neg hpl]
      have hb1 : (i0 + 1) + rest.length ≤ 8 * mask.length := by
        simp only [List.length_cons] at hbound
        omega
      obtain ⟨ih1, ih2, ih3, ih4⟩ :=
        ih (i0 + 1) mask (fun x hx => hlen x (by simp [hx])) hb1
          (fun j hj => hzero j (by omega))
      rw [hstep]
      refine ⟨ih1, ?_, ?_, ?_⟩
      · intro j hj
        exact ih2 j (by omega)
      · simp only [List.length_cons]
        omega
      · intro pre
        have hbit : getPathBit (compactFold spec rest (i0 + 1) mask).1 i0 = 0 := by
          rw [ih2 i0 (by omega)]
          exact hzero i0 le_rfl
        simp only [List.length_cons]
        rw [decompactFold_succ, if_neg (by rw [hbit]; norm_num), getD_append_cons]
        congr 1
        have hstep2 := ih4 (pre ++ [v])
        rw [List.length_append, List.length_singleton] at hstep2
        simpa [List.append_assoc] using hstep2

/-! ## The compact-proof sanity check and compaction -/

theorem compact_sanityCheck_true_iff (spec : TreeSpec) (c : SparseCompactMerkleSumProof) :
    c.sanityCheck spec = true ↔
      0 ≤ c.numSideNodes ∧ c.numSideNodes ≤ (spec.pathSize : Int) * 8 ∧
      c.bitMask.length = (c.numSideNodes.toNat + 7) / 8 ∧
      (0 < c.numSideNodes →
        (c.sideNodes.length : Int) = c.numSideNodes - (countSetBits c.bitMask : Int)) := by
  unfold SparseCompactMerkleSumProof.sanityCheck
  split_ifs with hb
  · simp only [Bool.or_eq_true, Bool.and_eq_true, decide_eq_true_iff] at hb
    constructor
    · intro hcontra
      simp at hcontra
    · rintro ⟨r1, r2, r3, r4⟩
      exfalso
      rcases hb with ((hx | hx) | hx) | ⟨hx, hy⟩
      · omega
      · omega
      · exact hx r3
      · exact hy (r4 hx)
  · simp only [Bool.or_eq_true, Bool.and_eq_true, decide_eq_true_iff, not_or] at hb
    obtain ⟨⟨⟨n1, n2⟩, n3⟩, n4⟩ := hb
    constructor
    · intro _
      refine ⟨by omega, by omega, by omega, ?_⟩
      intro hpos
      by_contra hne
      exact n4 ⟨hpos, hne⟩
    · intro _
      rfl

/-- What `CompactSumProof` produces on a sane proof: an ok compact proof
that itself passes the compact sanity check, with `NumSideNodes` the full
sidenode count, the ceiling-length bitmask, survivors accounting for every
non-placeholder sidenode, and whose decompaction returns the original. -/
theorem compactSumProof_spec (spec : TreeSpec) (proof : SparseMerkleSumProof)
    (h : proof.sanityCheck spec = true) :
    ∃ c, CompactSumProof proof spec = Except.ok c ∧
      c.sanityCheck spec = true ∧
      c.numSideNodes = (proof.sideNodes.length : Int) ∧
      c.bitMask.length = (proof.sideNodes.length + 7) / 8 ∧
      (c.sideNodes.length : Int) = c.numSideNodes - (countSetBits c.bitMask : Int) ∧
      DecompactSumProof c spec = Except.ok proof := by
  obtain ⟨hcount, hlens⟩ := sanityCheck_true_facts spec proof h
  have hnotfalse : ¬ proof.sanityCheck spec = false := by simp [h]
  obtain ⟨h1, h2, h3, h4⟩ := compactFold_correct spec proof.sideNodes 0
    (List.replicate ((proof.sideNodes.length + 7) / 8) 0) hlens
    (by rw [List.length_replicate]
        simpa using le_eight_mul_ceilDiv proof.sideNodes.length)
    (fun j _ => getPathBit_replicate_zero _ j)
  rw [List.length_replicate] at h1
  rw [countSetBits_replicate_zero] at h3
  have hdec := h4 []
  rw [List.nil_append, List.length_nil] at hdec
  have hc : CompactSumProof proof spec = Except.ok
      { sideNodes := (compactFold spec proof.sideNodes 0
          (List.replicate ((proof.sideNodes.length + 7) / 8) 0)).2
        nonMembershipLeafData := proof.nonMembershipLeafData
        bitMask := (compactFold spec proof.sideNodes 0
          (List.replicate ((proof.sideNodes.length + 7) / 8) 0)).1
        numSideNodes := (proof.sideNodes.length : Int)
        siblingData := proof.siblingData } := by
    rw [CompactSumProof, if_neg hnotfalse]
  generalize hgen : compactFold spec proof.sideNodes 0
      (List.replicate ((proof.sideNodes.length + 7) / 8) 0) = r at h1 h3 hdec hc
  have hsane2 : SparseCompactMerkleSumProof.sanityCheck
      { sideNodes := r.2
        nonMembershipLeafData := proof.nonMembershipLeafData
        bitMask := r.1
        numSideNodes := (proof.sideNodes.length : Int)
        siblingData := proof.siblingData } spec = true := by
    rw [compact_sanityCheck_true_iff]
    refine ⟨Int.natCast_nonneg _, ?_, ?_, ?_⟩
    · show (proof.sideNodes.length : Int) ≤ (spec.pathSize : Int) * 8
      exact_mod_cast hcount
    · show r.1.length = ((proof.sideNodes.length : Int).toNat + 7) / 8
      simpa using h1
    · intro hpos
      show (r.2.length : Int)
        = (proof.sideNodes.length : Int) - (countSetBits r.1 : Int)
      omega
  refine ⟨_, hc, hsane2, rfl, h1, ?_, ?_⟩
  · show (r.2.length : Int)
      = (proof.sideNodes.length : Int) - (countSetBits r.1 : Int)
    omega
  · have hnotfalse2 : ¬ SparseCompactMerkleSumProof.sanityCheck
        { sideNodes := r.2
          nonMembershipLeafData := proof.nonMembershipLeafData
          bitMask := r.1
          numSideNodes := (proof.sideNodes.length : Int)
          siblingData := proof.siblingData } spec = false := by
      simp [hsane2]
    rw [DecompactSumProof, if_neg hnotfalse2]
    show Except.ok
        { sideNodes := decompactFold spec r.1 r.2 0 0 ((proof.sideNodes.length : Int)).toNat
          nonMembershipLeafData := proof.nonMembershipLeafData
          siblingData := proof.siblingData } = Except.ok proof
    rw [show ((proof.sideNodes.length : Int)).toNat = proof.sideNodes.length by simp, hdec]

/-! ## Claim theorems -/

/-- Claim C1 (amended): the verifier's sanity check rejects a proof —
returning false with ErrBadProof, no updates and no folding — exactly when
the sidenode count exceeds the path bit-length, or some sidenode's byte
length differs from digestSize+16, or non-membership leaf data is present
but undersized, or sibling data is present while at least one sidenode
exists and it does not hash to the first sidenode. -/
theorem verifySumProof_sanity_rejects (spec : TreeSpec) (proof : SparseMerkleSumProof)
    (root key value : List Nat) (sum : List Nat) :
    (proof.sanityCheck spec = false ↔ specAmendedReject spec proof) ∧
    (proof.sanityCheck spec = false →
      verifySumProofWithUpdates proof root key value sum spec
        = (false, [], some SmtError.badProof)) := by
  refine ⟨sanityCheck_eq_false_iff spec proof, ?_⟩
  intro hf
  simp [verifySumProofWithUpdates, hf]

/-- Counterexample to claim C1 as stated: a proof whose single sidenode is
digestSize+8 bytes long triggers none of the claim's rejection conditions,
yet the code rejects it as a bad proof (sidenodes must be digestSize+16
bytes). -/
theorem verifySumProof_sanity_claim_cex :
    ¬ specClaimedReject tinySpec cexProofC1 ∧
    verifySumProofWithUpdates cexProofC1 [] [] [7] (toBE sumLength 0) tinySpec
      = (false, [], some SmtError.badProof) := by
  constructor
  · intro hr
    rcases hr with hx | hx | hx | hx
    · revert hx
      decide
    · revert hx
      decide
    · exact hx
    · exact hx
  · rfl

/-- Witness for the amended C1 at a concrete undersized sidenode. -/
theorem verifySumProof_sanity_rejects_witness :
    verifySumProofWithUpdates wProofC1 [] [4] [7] (toBE sumLength 0) tinySpec
      = (false, [], some SmtError.badProof) :=
  (verifySumProof_sanity_rejects tinySpec wProofC1 [] [4] [7] (toBE sumLength 0)).2
    (by decide)

/-- Claim C2: under a passing sanity check and no early non-membership
failure, VerifySumProof returns true exactly when the folded hash‖sum
equals the supplied root byte-for-byte, i.e. both the hash part and the
sum part match. -/
theorem verifySumProof_true_iff_rootMatch (spec : TreeSpec) (proof : SparseMerkleSumProof)
    (root key value : List Nat) (sum : Nat)
    (hs : proof.sanityCheck spec = true)
    (hnm : value = defaultValue → ∀ d, proof.nonMembershipLeafData = some d →
      (parseSumLeaf spec d).1 ≠ spec.path key) :
    ((VerifySumProof proof root key value sum spec).1 = true ↔
      specFoldedRoot spec proof key value sum = root) ∧
    (specFoldedRoot spec proof key value sum = root ↔
      (specFoldedRoot spec proof key value sum).take spec.hashSize
          = root.take spec.hashSize ∧
      (specFoldedRoot spec proof key value sum).drop spec.hashSize
          = root.drop spec.hashSize) := by
  refine ⟨?_, list_eq_iff_take_drop spec.hashSize _ root⟩
  unfold VerifySumProof verifySumProofWithUpdates specFoldedRoot expectedSumLeafHash
  by_cases hv : value = defaultValue
  · rcases hd : proof.nonMembershipLeafData with _ | d
    · simp [hs, hv, hd, beq_iff_eq]
    · have hne := hnm hv d hd
      simp [hs, hv, hd, hne, beq_iff_eq]
  · simp [hs, hv, beq_iff_eq]

/-- Witness for C2 at a concrete membership proof. -/
theorem verifySumProof_true_iff_rootMatch_witness :
    ((VerifySumProof w2proof [] [3] [1] 5 tinySpec).1 = true ↔
      specFoldedRoot tinySpec w2proof [3] [1] 5 = []) ∧
    (specFoldedRoot tinySpec w2proof [3] [1] 5 = [] ↔
      (specFoldedRoot tinySpec w2proof [3] [1] 5).take tinySpec.hashSize
          = ([] : List Nat).take tinySpec.hashSize ∧
      (specFoldedRoot tinySpec w2proof [3] [1] 5).drop tinySpec.hashSize
          = ([] : List Nat).drop tinySpec.hashSize) :=
  verifySumProof_true_iff_rootMatch tinySpec w2proof [] [3] [1] 5 (by decide)
    (fun hv => absurd hv (by decide))

/-- Claim C3: for every proof passing its sanity check, decompacting its
compaction returns, without error, the original proof value. -/
theorem decompact_compact_roundtrip (spec : TreeSpec) (proof : SparseMerkleSumProof)
    (h : proof.sanityCheck spec = true) :
    (CompactSumProof proof spec).bind (fun c => DecompactSumProof c spec)
      = Except.ok proof := by
  obtain ⟨c, hc, _, _, _, _, hd⟩ := compactSumProof_spec spec proof h
  rw [hc]
  exact hd

/-- Witness for C3 at a concrete sane proof with a placeholder sidenode. -/
theorem decompact_compact_roundtrip_witness :
    p3proof.sanityCheck tinySpec = true ∧
    (CompactSumProof p3proof tinySpec).bind (fun c => DecompactSumProof c tinySpec)
      = Except.ok p3proof :=
  ⟨by decide, decompact_compact_roundtrip tinySpec p3proof (by decide)⟩

/-- Claim C4 evidence (code bug): on the empty tree, the empty proof
verifies the absence of a key with claimed sum 0 — but it also verifies
with the nonzero claimed sum 5, because the verifier never reads the
claimed sum in its non-membership branch; the repo's own test
(TestSMST_ProofsBasic, the `wrong sum` case for an empty key) requires
false there.  A non-default claimed value is still rejected. -/
theorem verifySumProof_ignores_sum_for_nonmembership :
    VerifySumProof emptySumProof (emptyTreeRoot bugSpec) [2] defaultValue 0 bugSpec
      = (true, none) ∧
    VerifySumProof emptySumProof (emptyTreeRoot bugSpec) [2] defaultValue 5 bugSpec
      = (true, none) ∧
    VerifySumProof emptySumProof (emptyTreeRoot bugSpec) [2] [9] 0 bugSpec
      = (false, none) := by
  refine ⟨by decide, by decide, by decide⟩

/-- Claim C5: one folding step combines the accumulated node with the
sidenode (copied to full width) through digestSumNode, oriented by the path
bit at numSideNodes−1−i — bit 0 puts the accumulated node on the left —
and digestSumNode adds the two operand sums (64-bit) into the sum field of
its result. -/
theorem foldStep_orientation_and_sum (spec : TreeSpec) (path v : List Nat)
    (rest : List (List Nat)) (total i : Nat) (cur : List Nat) :
    (foldSumSideNodes spec path total (v :: rest) i cur).1 =
      (foldSumSideNodes spec path total rest (i + 1)
        (if getPathBit path (total - 1 - i) = left
         then (digestSumNode spec cur (copyInto (spec.hashSize + sumLength) v)).1
         else (digestSumNode spec (copyInto (spec.hashSize + sumLength) v) cur).1)).1 ∧
    ∀ l r : List Nat,
      fromBE ((digestSumNode spec l r).1.drop spec.hashSize) =
        (fromBE (l.drop (l.length - sumLength)) + fromBE (r.drop (r.length - sumLength)))
          % 2 ^ 64 := by
  constructor
  · by_cases hb : getPathBit path (total - 1 - i) = left
    · simp [foldSumSideNodes, hb]
    · simp [foldSumSideNodes, hb]
  · intro l r
    simp only [digestSumNode]
    have hlen : (spec.baseHash (innerTag ++ l ++ r)).length = spec.hashSize :=
      spec.baseHash_len _
    rw [← hlen, List.drop_left]
    refine fromBE_toBE sumLength _ ?_
    have hmod := Nat.mod_lt
      (fromBE (l.drop (l.length - sumLength)) + fromBE (r.drop (r.length - sumLength)))
      (show 0 < 2 ^ 64 by norm_num)
    calc _ < 2 ^ 64 := hmod
      _ ≤ 256 ^ sumLength := by norm_num [sumLength]

/-- Claim C6: a non-membership claim (value = defaultValue) whose attached
leaf data decodes to the queried path itself fails verification with
ErrBadProof. -/
theorem nonMembership_matching_path_badProof (spec : TreeSpec)
    (proof : SparseMerkleSumProof) (root key : List Nat) (sum : Nat) (d : List Nat)
    (hd : proof.nonMembershipLeafData = some d)
    (hp : (parseSumLeaf spec d).1 = spec.path key) :
    VerifySumProof proof root key defaultValue sum spec
      = (false, some SmtError.badProof) := by
  unfold VerifySumProof verifySumProofWithUpdates
  by_cases hs : proof.sanityCheck spec = false
  · simp [hs]
  · simp [hs, hd, hp]

/-- Witness for C6 at a concrete matching non-membership proof. -/
theorem nonMembership_matching_path_badProof_witness :
    VerifySumProof w6proof [] [8] defaultValue 0 tinySpec
      = (false, some SmtError.badProof) :=
  nonMembership_matching_path_badProof tinySpec w6proof [] [8] 0 [9, 0] rfl (by decide)

/-- Claim C7 (amended): a compact proof passes its sanity check exactly when
0 ≤ NumSideNodes ≤ path bit-length, the bitmask length is
ceil(NumSideNodes/8), and — whenever NumSideNodes is positive — the
supplied sidenodes number NumSideNodes minus the bitmask's set bits; and
DecompactSumProof returns ErrBadProof, reconstructing nothing, for every
compact proof failing this check. -/
theorem compact_sanityCheck_iff (spec : TreeSpec) (c : SparseCompactMerkleSumProof) :
    (c.sanityCheck spec = true ↔
      0 ≤ c.numSideNodes ∧ c.numSideNodes ≤ (spec.pathSize : Int) * 8 ∧
      c.bitMask.length = (c.numSideNodes.toNat + 7) / 8 ∧
      (0 < c.numSideNodes →
        (c.sideNodes.length : Int) = c.numSideNodes - (countSetBits c.bitMask : Int))) ∧
    (c.sanityCheck spec = false →
      DecompactSumProof c spec = Except.error SmtError.badProof) := by
  refine ⟨compact_sanityCheck_true_iff spec c, ?_⟩
  intro hf
  rw [DecompactSumProof, if_pos hf]

/-- Counterexample to claim C7 as stated: a compact proof with
NumSideNodes = 0, an empty bitmask and one stray sidenode passes the code's
sanity check (the sidenode-count equation is only enforced when
NumSideNodes > 0) and decompacts without error, while the claim's condition
requires the sidenode count to equal NumSideNodes minus the set bits. -/
theorem compact_sanityCheck_claim_cex :
    c7cex.sanityCheck tinySpec = true ∧
    ¬ ((c7cex.sideNodes.length : Int)
        = c7cex.numSideNodes - (countSetBits c7cex.bitMask : Int)) ∧
    DecompactSumProof c7cex tinySpec = Except.ok
      { sideNodes := [], nonMembershipLeafData := none, siblingData := none } := by
  refine ⟨by decide, by decide, by rfl⟩

/-- Witness for the amended C7 at a concrete negative sidenode count. -/
theorem compact_sanityCheck_iff_witness :
    DecompactSumProof c7w tinySpec = Except.error SmtError.badProof :=
  (compact_sanityCheck_iff tinySpec c7w).2 (by decide)

/-- Claim C8: updating a key stores the value digest with the sum appended
as 8 big-endian bytes, Get returns exactly that digest and decoded sum, and
Get on an absent key returns the defaultValue sentinel with sum 0 (Get is a
pure read of the map). -/
theorem smst_get_update_roundtrip (spec : TreeSpec) (t : SMTMap) (k v : List Nat)
    (s : Nat) :
    SMST.Get spec (SMST.Update spec t k v s) k = (spec.digestValue v, s % 2 ^ 64) ∧
    ∀ u : SMTMap, SMT.Get u k = defaultValue → SMST.Get spec u k = (defaultValue, 0) := by
  constructor
  · unfold SMST.Update SMT.Update SMST.Get SMT.Get
    rw [List.find?_cons_of_pos _ (by simp)]
    have hlen8 : (toBE sumSize (s % 2 ^ 64)).length = sumSize := toBE_length _ _
    have hne : ¬ (spec.digestValue v ++ toBE sumSize (s % 2 ^ 64)) = defaultValue := by
      intro hcontra
      have hl := congrArg List.length hcontra
      rw [List.length_append, hlen8] at hl
      simp only [defaultValue, List.length_nil, sumSize] at hl
      omega
    rw [if_neg hne]
    have hlen : (spec.digestValue v ++ toBE sumSize (s % 2 ^ 64)).length
        = (spec.digestValue v).length + sumSize := by
      rw [List.length_append, hlen8]
    rw [hlen, Nat.add_sub_cancel]
    have htake : (spec.digestValue v ++ toBE sumSize (s % 2 ^ 64)).take
        (spec.digestValue v).length = spec.digestValue v := List.take_left _ _
    have hdrop : (spec.digestValue v ++ toBE sumSize (s % 2 ^ 64)).drop
        (spec.digestValue v).length = toBE sumSize (s % 2 ^ 64) := List.drop_left _ _
    rw [htake, hdrop, fromBE_toBE sumSize _ (by
      have := Nat.mod_lt s (show 0 < 2 ^ 64 by norm_num)
      calc s % 2 ^ 64 < 2 ^ 64 := this
        _ ≤ 256 ^ sumSize := by norm_num [sumSize])]
  · intro u hu
    unfold SMST.Get
    rw [hu, if_pos rfl]

/-- Witness for C8 at a concrete update. -/
theorem smst_get_update_roundtrip_witness :
    SMST.Get tinySpec (SMST.Update tinySpec [] [3] [7] 5) [3]
      = (tinySpec.digestValue [7], 5 % 2 ^ 64) ∧
    SMST.Get tinySpec [] [3] = (defaultValue, 0) :=
  ⟨(smst_get_update_roundtrip tinySpec [] [3] [7] 5).1,
   (smst_get_update_roundtrip tinySpec [] [3] [7] 5).2 [] rfl⟩

/-- Claim C9: on the empty tree ProveClosest returns a nil key, nil value,
sum 0 and an empty proof, and that proof verifies against the empty tree's
root; on a tree with exactly one leaf it returns that leaf for every query
path. -/
theorem proveClosest_empty_and_single (spec : TreeSpec) (qp k v : List Nat) (s : Nat) :
    ProveClosest [] qp = ([], [], 0, emptySumProof) ∧
    VerifySumProof emptySumProof (emptyTreeRoot spec) [] defaultValue 0 spec
      = (true, none) ∧
    ProveClosest [(k, v, s)] qp = (k, v, s, emptySumProof) := by
  refine ⟨rfl, ?_, rfl⟩
  have hs : SparseMerkleSumProof.sanityCheck
      { sideNodes := [], nonMembershipLeafData := none, siblingData := none } spec
        = true := by
    unfold SparseMerkleSumProof.sanityCheck nmlUndersized
    simp
  unfold VerifySumProof verifySumProofWithUpdates emptyTreeRoot
  simp [emptySumProof, hs, foldSumSideNodes]

/-- Claim C10: the compact proof produced from any sane proof itself passes
the compact sanity check — NumSideNodes is the original sidenode count, the
bitmask has ceiling length, the survivors number NumSideNodes minus the set
bits — and its decompaction never errors. -/
theorem compactSumProof_passes_sanity (spec : TreeSpec) (proof : SparseMerkleSumProof)
    (h : proof.sanityCheck spec = true) :
    ∃ c, CompactSumProof proof spec = Except.ok c ∧
      c.sanityCheck spec = true ∧
      c.numSideNodes = (proof.sideNodes.length : Int) ∧
      c.bitMask.length = (proof.sideNodes.length + 7) / 8 ∧
      (c.sideNodes.length : Int) = c.numSideNodes - (countSetBits c.bitMask : Int) ∧
      ∃ q, DecompactSumProof c spec = Except.ok q := by
  obtain ⟨c, hc, hs2, hn, hb, hsn, hd⟩ := compactSumProof_spec spec proof h
  exact ⟨c, hc, hs2, hn, hb, hsn, proof, hd⟩

/-- Witness for C10 at a concrete one-sidenode proof. -/
theorem compactSumProof_passes_sanity_witness :
    p10proof.sanityCheck tinySpec = true ∧
    ∃ c, CompactSumProof p10proof tinySpec = Except.ok c ∧
      c.sanityCheck tinySpec = true ∧
      c.numSideNodes = (p10proof.sideNodes.length : Int) ∧
      c.bitMask.length = (p10proof.sideNodes.length + 7) / 8 ∧
      (c.sideNodes.length : Int) = c.numSideNodes - (countSetBits c.bitMask : Int) ∧
      ∃ q, DecompactSumProof c tinySpec = Except.ok q :=
  ⟨by decide, compactSumProof_passes_sanity tinySpec p10proof (by decide)⟩
